import Mathlib

/-!
Verification of the `phi` repository (crate `phi-lib`, files `src/rule.rs` and
`src/tape.rs`).

The crate implements positional numeral systems defined by a carry rule: a
`Rule` is a non-increasing list of digits, a `Tape` is a doubly-infinite digit
sequence with a finite materialized window, and `standardize` normalizes a tape
by repeatedly applying the carry rule.

Modelling conventions:
* Rust `Value` (`u32`) digits are modelled as `Nat`.  All digit arithmetic in
  the claims is assumed overflow-free (on overflow the Rust code aborts in
  debug builds and the claims explicitly assume no overflow), so `Nat`
  arithmetic coincides with `u32` arithmetic on the inputs in scope.
* Rust panics (assertion failures, `unwrap` of `None`/`Err`) in `standardize`
  are modelled by an `Option` result, `none` meaning the call panics.  The
  `apply_in_place` function both asserts (`rule_len > 0`) and returns a
  structured error, hence its model returns `Option (Except ApplyRuleError Tape)`.
* The `f64` computations (`Rule::base`, `Tape::value`) are modelled over an
  arbitrary field `K`: `Tape.value` takes the base as an explicit field
  element.  "Equal within floating-point tolerance" facts are settled as exact
  equalities over `K` for any `b` satisfying the rule's characteristic
  equation (which the true base satisfies by definition).
-/

set_option maxRecDepth 4000

namespace Phi

/-- Rust `Value` (`u32`) digit, modelled as `Nat` (see the header comment). -/
abbrev Value := Nat

/-! ## Rule (`src/rule.rs`) -/

/-- `struct Rule { values: Vec<Value>, base: f64 }`.  The cached `f64` field
`base` is not carried in the model (it is derived data; `PartialEq for Rule`
compares only `values`). -/
structure Rule where
  values : List Value
deriving DecidableEq

/-- `values.iter().tuple_windows().any(|(a, b)| a < b)`: some element is
followed by a strictly larger one. -/
def hasAdjacentIncrease : List Value → Bool
  | a :: b :: rest => decide (a < b) || hasAdjacentIncrease (b :: rest)
  | _ => false

/-- `Rule::from_array` (rule.rs lines 14-33): the ordering check and the
trailing-zero stripping.  On the success path the source additionally computes
`calculate_rule_base(values)`; that `f64` bisection is floating point and is
not carried in the model (the cached `base` is derived data which
`PartialEq for Rule` ignores).  Because `calculate_rule_base`'s bracket
asserts can fail on accepted digit sequences — evaluating the characteristic
polynomial overflows `f64` to `-inf + inf = NaN` for e.g. 1100 ones — the
model returns `some` on certain inputs where the source panics:
`Rule.from_array l = some r` over-approximates "the source returns
`Some(r)`", which is sound where it appears as a hypothesis, and the
divergence itself is the subject of the C6 theorem below. -/
def Rule.from_array (l : List Value) : Option Rule :=
  if hasAdjacentIncrease l then none
  else
    let result := l.takeWhile (fun v => decide (v ≠ 0))
    if result = [] then none else some ⟨result⟩

/-- `Rule::first`: `values.first().copied().unwrap()`.  The `unwrap` cannot
fail for a constructed rule (`values` is non-empty); the model totalizes with
default `0`. -/
def Rule.first (r : Rule) : Value := r.values.headD 0

/-- `Rule::len`. -/
def Rule.len (r : Rule) : Nat := r.values.length

/-- `Rule::get`: `values.get(index).copied()`. -/
def Rule.get (r : Rule) (i : Nat) : Option Value := r.values[i]?

/-- `impl Index<usize> for Rule`: `values.get(index).unwrap_or(&0)`. -/
def Rule.index (r : Rule) (i : Nat) : Value := (r.values[i]?).getD 0

/-! ## Tape (`src/tape.rs`) -/

/-- `ApplyRuleError` (tape.rs lines 10-17). -/
structure ApplyRuleError where
  application_index : Int
  rule_index : Nat
  rule_value : Value
  tape_value : Value
deriving DecidableEq

/-- `struct Tape`: `positive_values` holds positions `0, 1, 2, …` (vector
index = position), `negative_values` holds positions `-1, -2, …` (vector index
`k` = position `-(k+1)`). -/
structure Tape where
  positive_values : List Value
  negative_values : List Value
deriving DecidableEq

/-- `Tape::from_arrays`: the positive side is given most-significant first and
reversed for storage; the negative side is stored as given. -/
def Tape.from_arrays (positives negatives : List Value) : Tape :=
  ⟨positives.reverse, negatives⟩

/-- `Tape::zero`. -/
def Tape.zero : Tape := ⟨[], []⟩

/-- First component of `Tape::range`: `-(negative_values.len() as isize)`. -/
def Tape.minPos (t : Tape) : Int := -(t.negative_values.length : Int)

/-- Second component of `Tape::range`: `positive_values.len() as isize`. -/
def Tape.maxPos (t : Tape) : Int := (t.positive_values.length : Int)

/-- `Tape::range`. -/
def Tape.range (t : Tape) : Int × Int := (t.minPos, t.maxPos)

/-- `impl Index<isize> for Tape` combined with `Tape::internal_index`:
the digit at a signed position, `0` outside the materialized window. -/
def Tape.get (t : Tape) (i : Int) : Value :=
  if 0 ≤ i then t.positive_values.getD i.toNat 0
  else t.negative_values.getD (-i - 1).toNat 0

/-- The list growth performed by `IndexMut for Tape`: if `array.len() <= index`
then `array.resize(index + 1, 0)`, followed by the write itself. -/
def listExtendSet (l : List Value) (i : Nat) (v : Value) : List Value :=
  (l ++ List.replicate (i + 1 - l.length) 0).set i v

/-- `impl IndexMut<isize> for Tape`: write `v` at position `i`, zero-extending
the corresponding side if `i` is outside the materialized window. -/
def Tape.set (t : Tape) (i : Int) (v : Value) : Tape :=
  if 0 ≤ i then { t with positive_values := listExtendSet t.positive_values i.toNat v }
  else { t with negative_values := listExtendSet t.negative_values (-i - 1).toNat v }

/-- The list of positions `hi - 1, hi - 2, …, lo` (descending). -/
def descRange (lo hi : Int) : List Int :=
  (List.range (hi - lo).toNat).map (fun k : Nat => hi - 1 - (k : Int))

/-- `Tape::index_iter`: `(min..max).rev()`. -/
def Tape.index_iter (t : Tape) : List Int := descRange t.minPos t.maxPos

/-- `Tape::value` (tape.rs lines 72-79): `Σ digit(i) * base^i` over the
materialized positions.  `self.iter().zip(self.index_iter())` pairs each
materialized position `i` with its digit `self[i]`, so the sum is over
`index_iter` of `self[i] * base^i`; the `f64` base is replaced by an arbitrary
field element `b` (header comment). -/
def Tape.value {K : Type} [Field K] (t : Tape) (b : K) : K :=
  (t.index_iter.map (fun i => (t.get i : K) * b ^ i)).sum

/-- The loop of `Tape::apply_in_place` (tape.rs lines 89-100): for each
remaining rule value `v` at absolute rule index `k`, check and decrement the
digit at `index - (k + 1)`. -/
def applyLoop (idx : Int) : Tape → List Value → Nat → Except ApplyRuleError Tape
  | t, [], _ => .ok t
  | t, v :: rest, k =>
    let tape_index := idx - ((k : Int) + 1)
    if t.get tape_index < v then
      .error ⟨idx, k, v, t.get tape_index⟩
    else
      applyLoop idx (t.set tape_index (t.get tape_index - v)) rest (k + 1)

/-- `Tape::apply_in_place` (tape.rs lines 85-102).  `none` models the
`assert!(rule_len > 0)` panic; otherwise the digit at `index` is incremented
and the rule loop runs. -/
def Tape.apply_in_place (t : Tape) (r : Rule) (idx : Int) :
    Option (Except ApplyRuleError Tape) :=
  if r.values.length = 0 then none
  else some (applyLoop idx (t.set idx (t.get idx + 1)) r.values 0)

/-- `Tape::apply`: clones and runs `apply_in_place`; in the persistent model
the clone is the identity. -/
def Tape.apply (t : Tape) (r : Rule) (idx : Int) :
    Option (Except ApplyRuleError Tape) :=
  t.apply_in_place r idx

/-- `Tape::is_valid` (tape.rs lines 104-107): every materialized digit is
`≤ rule.first()`. -/
def Tape.is_valid (t : Tape) (r : Rule) : Bool :=
  (t.positive_values.reverse ++ t.negative_values).all (fun v => decide (v ≤ r.first))

/-- The scan loop of `Tape::is_standard` (tape.rs lines 117-127): walk the
positions downward keeping the window start `cur`; `none` models the
`return false` taken when `rule.get(rule_index)` is `None`, `some cur` is the
value of `cur` after the loop.  (The `usize::try_from(cur - i - 1).unwrap()`
cannot fail: `cur ≥ i + 1` throughout; the model uses `Int.toNat`.) -/
def standardScan (rvals : List Value) (t : Tape) : List Int → Int → Option Int
  | [], cur => some cur
  | i :: rest, cur =>
    match rvals[(cur - i - 1).toNat]? with
    | some rv => standardScan rvals t rest (if t.get i < rv then i else cur)
    | none => none

/-- `Tape::is_standard` (tape.rs lines 109-133).  (The leading
`assert!(rule_len > 0)` and the trailing `assert!(cur - min < rule_len)` are
omitted: the former holds for every constructed rule, the latter follows from
the preceding `cur - min == rule_len` early return.) -/
def Tape.is_standard (t : Tape) (r : Rule) : Bool :=
  if ¬ t.is_valid r then false
  else
    match standardScan r.values t t.index_iter t.maxPos with
    | none => false
    | some cur => decide (¬ (cur - t.minPos = (r.values.length : Int)))

/-- The scan loop of `Tape::standardize_in_place` (tape.rs lines 147-158).
`none` models a panic: the `usize::try_from(..).unwrap()`, the
`assert!(self[cur] < rule_max)`, or the `.unwrap()` of a failed / panicking
`apply_in_place`. -/
def standardizeLoop (r : Rule) : List Int → Tape → Int → Option (Tape × Int)
  | [], t, cur => some (t, cur)
  | i :: rest, t, cur =>
    if cur - i - 1 < 0 then none
    else
      match r.values[(cur - i - 1).toNat]? with
      | some rv => standardizeLoop r rest t (if t.get i < rv then i else cur)
      | none =>
        if t.get cur < r.first then
          match t.apply_in_place r cur with
          | some (.ok t2) => standardizeLoop r rest t2 i
          | _ => none
        else none

/-- `Tape::standardize_in_place` (tape.rs lines 139-164).  `none` models a
panic: the two leading asserts, a panic inside the scan loop, the `.unwrap()`
of the final boundary `apply_in_place`, or the trailing
`assert!(cur - min < rule_len)`.  `min`, `max` and the iterated positions are
captured from the tape before the loop, exactly as in the source. -/
def Tape.standardize_in_place (t : Tape) (r : Rule) : Option Tape :=
  if ¬ t.is_valid r then none
  else if r.values.length = 0 then none
  else
    match standardizeLoop r t.index_iter t t.maxPos with
    | none => none
    | some (t2, cur) =>
      match (if cur - t.minPos - 1 = (r.values.length : Int)
             then t2.apply_in_place r cur else some (.ok t2)) with
      | some (.ok t3) =>
          if cur - t.minPos < (r.values.length : Int) then some t3 else none
      | _ => none

/-- `Tape::standardize`: clones and runs `standardize_in_place`. -/
def Tape.standardize (t : Tape) (r : Rule) : Option Tape :=
  t.standardize_in_place r

/-- One side of `impl AddAssign<Tape> for Tape` (tape.rs lines 233-247):
zero-resize `x` up to `y`'s length if needed, then add `y` element-wise onto
the resized `x` (the zip stops at `y`'s end, leaving any longer tail of `x`
unchanged). -/
def addSide (x y : List Value) : List Value :=
  let x2 := x ++ List.replicate (y.length - x.length) 0
  x2.zipWith (· + ·) y ++ x2.drop y.length

/-- `impl Add<Tape> for Tape` via `AddAssign`. -/
def Tape.add (a b : Tape) : Tape :=
  ⟨addSide a.positive_values b.positive_values,
   addSide a.negative_values b.negative_values⟩

/-- One side of `impl PartialEq for Tape` (tape.rs lines 188-203): the common
prefixes agree and both remainders past the common length are all zero. -/
def sideBeq (x y : List Value) : Bool :=
  let m := min x.length y.length
  decide (x.take m = y.take m) &&
    ((x.drop m ++ y.drop m).all (fun v => decide (v = 0)))

/-- `impl PartialEq for Tape`: equality per side ignoring all-zero suffixes. -/
def Tape.beq (a b : Tape) : Bool :=
  sideBeq a.positive_values b.positive_values &&
    sideBeq a.negative_values b.negative_values

/-- The sum `Σ_j rvals[j] * b ^ (c - 1 - (k + j))` of rule values weighted at
the positions a carry at index `c` decrements (starting at absolute rule index
`k`).  With `c = rvals.length` and `k = 0` this is the right-hand side of the
rule's characteristic equation `b ^ n = Σ_j r[j] * b ^ (n - 1 - j)`, the
equation whose unique positive root is the rule's base (rule.rs lines 80-118).
-/
def ruleDebt {K : Type} [Field K] (rvals : List Value) (c : Int) (k : Nat) (b : K) : K :=
  match rvals with
  | [] => 0
  | v :: rest => (v : K) * b ^ (c - ((k : Int) + 1)) + ruleDebt rest c (k + 1) b

/-- Position `p` lies in the materialized window of `t`. -/
def Tape.inWin (t : Tape) (p : Int) : Prop := t.minPos ≤ p ∧ p < t.maxPos

/-- `Σ digit(p) * b ^ p` over an explicit window of positions (proof
device used to relate `Tape.value` before and after digit rewrites). -/
def windowValue {K : Type} [Field K] (t : Tape) (lo hi : Int) (b : K) : K :=
  ∑ p in Finset.Ico lo hi, (t.get p : K) * b ^ p

/-- `stripTrailingZeros l` removes the maximal all-zero suffix.
Modelled from the spec: "strips trailing zeros" (spec.md section 4.1), for
comparison with the `take_while(|&v| v != 0)` the source performs. -/
def stripTrailingZeros : List Value → List Value
  | [] => []
  | a :: l =>
    match stripTrailingZeros l with
    | [] => if a = 0 then [] else [a]
    | l2 => a :: l2

deriving instance DecidableEq for Except

/-! ## Indexing infrastructure: `Tape.get` / `Tape.set` -/

theorem listExtendSet_length (l : List Value) (i : Nat) (v : Value) :
    (listExtendSet l i v).length = max l.length (i + 1) := by
  simp [listExtendSet]
  omega

theorem getD_listExtendSet_self (l : List Value) (i : Nat) (v : Value) :
    ((listExtendSet l i v)[i]?).getD 0 = v := by
  have h : i < (l ++ List.replicate (i + 1 - l.length) 0).length := by
    simp
    omega
  simp [listExtendSet, List.getElem?_set_self h]

theorem getD_listExtendSet_ne (l : List Value) (i j : Nat) (v : Value) (hne : j ≠ i) :
    ((listExtendSet l i v)[j]?).getD 0 = (l[j]?).getD 0 := by
  simp only [listExtendSet,
    List.getElem?_set_ne (fun h => hne h.symm)]
  by_cases hj : j < l.length
  · rw [List.getElem?_append_left hj]
  · rw [List.getElem?_append_right (by omega)]
    rw [List.getElem?_eq_none (n := j) (by omega)]
    by_cases hj2 : j - l.length < i + 1 - l.length
    · simp [List.getElem?_replicate, hj2]
    · rw [List.getElem?_eq_none (by simp; omega)]

theorem Tape.get_set_self (t : Tape) (i : Int) (v : Value) :
    (t.set i v).get i = v := by
  unfold Tape.set Tape.get
  by_cases h : 0 ≤ i <;> simp [h, getD_listExtendSet_self]

theorem Tape.get_set_ne (t : Tape) (i j : Int) (v : Value) (hne : j ≠ i) :
    (t.set i v).get j = t.get j := by
  unfold Tape.set Tape.get
  by_cases hi : 0 ≤ i <;> by_cases hj : 0 ≤ j <;>
    simp only [hi, hj, if_true, if_false, reduceIte]
  · rw [List.getD_eq_getElem?_getD, List.getD_eq_getElem?_getD]
    apply getD_listExtendSet_ne
    omega
  · rw [List.getD_eq_getElem?_getD, List.getD_eq_getElem?_getD]
    apply getD_listExtendSet_ne
    omega

theorem Tape.minPos_set_le (t : Tape) (i : Int) (v : Value) :
    (t.set i v).minPos ≤ t.minPos := by
  unfold Tape.set Tape.minPos
  by_cases h : 0 ≤ i <;> simp [h, listExtendSet_length]

theorem Tape.maxPos_set_ge (t : Tape) (i : Int) (v : Value) :
    t.maxPos ≤ (t.set i v).maxPos := by
  unfold Tape.set Tape.maxPos
  by_cases h : 0 ≤ i <;> simp [h, listExtendSet_length]

theorem Tape.inWin_set_self (t : Tape) (i : Int) (v : Value) :
    (t.set i v).inWin i := by
  unfold Tape.set Tape.inWin Tape.minPos Tape.maxPos
  by_cases h : 0 ≤ i <;> simp [h, listExtendSet_length] <;> omega

theorem Tape.inWin_mono_set (t : Tape) (i : Int) (v : Value) (p : Int)
    (hp : t.inWin p) : (t.set i v).inWin p :=
  ⟨le_trans (t.minPos_set_le i v) hp.1, lt_of_lt_of_le hp.2 (t.maxPos_set_ge i v)⟩

theorem Tape.get_eq_zero_of_notWin (t : Tape) (p : Int) (hp : ¬ t.inWin p) :
    t.get p = 0 := by
  unfold Tape.inWin Tape.minPos Tape.maxPos at hp
  unfold Tape.get
  by_cases h : 0 ≤ p <;> simp only [h, if_true, if_false, reduceIte]
  · rw [List.getD_eq_getElem?_getD, List.getElem?_eq_none (by omega)]
    rfl
  · rw [List.getD_eq_getElem?_getD, List.getElem?_eq_none (by omega)]
    rfl

/-! ## Window sums and `Tape.value` -/

theorem Tape.minPos_le_maxPos (t : Tape) : t.minPos ≤ t.maxPos := by
  unfold Tape.minPos Tape.maxPos
  omega

theorem descRange_map_sum {K : Type} [Field K] (f : Int → K) :
    ∀ (n : Nat) (hi : Int),
      (((List.range n).map (fun k : Nat => f (hi - 1 - (k : Int)))).sum)
        = ∑ p in Finset.Ico (hi - (n : Int)) hi, f p
  | 0, hi => by simp
  | n + 1, hi => by
    rw [List.range_succ, List.map_append, List.sum_append,
      descRange_map_sum f n hi]
    have hins : Finset.Ico (hi - ((n : Int) + 1)) hi
        = insert (hi - 1 - (n : Int)) (Finset.Ico (hi - (n : Int)) hi) := by
      ext x
      simp only [Finset.mem_Ico, Finset.mem_insert]
      omega
    have hnotmem : (hi - 1 - (n : Int)) ∉ Finset.Ico (hi - (n : Int)) hi := by
      simp only [Finset.mem_Ico]
      omega
    push_cast
    rw [hins, Finset.sum_insert hnotmem]
    simp [add_comm]

theorem descRange_sum {K : Type} [Field K] (f : Int → K) (lo hi : Int) (h : lo ≤ hi) :
    ((descRange lo hi).map f).sum = ∑ p in Finset.Ico lo hi, f p := by
  unfold descRange
  rw [List.map_map]
  have hcomp : (f ∘ fun k : Nat => hi - 1 - (k : Int))
      = fun k : Nat => f (hi - 1 - (k : Int)) := rfl
  rw [hcomp, descRange_map_sum f ((hi - lo).toNat) hi]
  have h2 : hi - (((hi - lo).toNat : Nat) : Int) = lo := by omega
  rw [h2]

theorem Tape.value_eq_windowValue {K : Type} [Field K] (t : Tape) (b : K) :
    t.value b = windowValue t t.minPos t.maxPos b := by
  unfold Tape.value Tape.index_iter
  rw [descRange_sum (fun p => (t.get p : K) * b ^ p) t.minPos t.maxPos t.minPos_le_maxPos]
  rfl

theorem windowValue_eq_value {K : Type} [Field K] (t : Tape) (lo hi : Int) (b : K)
    (h1 : lo ≤ t.minPos) (h2 : t.maxPos ≤ hi) :
    windowValue t lo hi b = t.value b := by
  rw [Tape.value_eq_windowValue]
  unfold windowValue
  refine (Finset.sum_subset (Finset.Ico_subset_Ico h1 h2) ?_).symm
  intro p _ hp
  have hz : t.get p = 0 := by
    apply t.get_eq_zero_of_notWin
    unfold Tape.inWin
    simp only [Finset.mem_Ico] at hp
    omega
  rw [hz]
  simp

theorem windowValue_set {K : Type} [Field K] (t : Tape) (i : Int) (v : Value)
    (lo hi : Int) (b : K) (h : i ∈ Finset.Ico lo hi) :
    windowValue (t.set i v) lo hi b
      = windowValue t lo hi b + ((v : K) - (t.get i : K)) * b ^ i := by
  unfold windowValue
  rw [Finset.sum_eq_sum_diff_singleton_add h
        (fun p => ((t.set i v).get p : K) * b ^ p),
      Finset.sum_eq_sum_diff_singleton_add h (fun p => (t.get p : K) * b ^ p)]
  have hcongr : ∀ p ∈ Finset.Ico lo hi \ {i},
      (((t.set i v).get p : K) * b ^ p) = ((t.get p : K) * b ^ p) := by
    intro p hp
    simp only [Finset.mem_sdiff, Finset.mem_singleton] at hp
    rw [t.get_set_ne i p v hp.2]
  rw [Finset.sum_congr rfl hcongr, t.get_set_self]
  ring

/-! ## Characterization of `applyLoop` and `apply_in_place` -/

theorem applyLoop_window (idx : Int) :
    ∀ (rv : List Value) (k : Nat) (t t' : Tape),
      applyLoop idx t rv k = .ok t' → t'.minPos ≤ t.minPos ∧ t.maxPos ≤ t'.maxPos
  | [], _, t, t', h => by
    simp only [applyLoop] at h
    cases h
    exact ⟨le_refl _, le_refl _⟩
  | v :: rest, k, t, t', h => by
    simp only [applyLoop] at h
    split at h
    · cases h
    · have ih := applyLoop_window idx rest (k + 1) _ t' h
      exact ⟨le_trans ih.1 (Tape.minPos_set_le _ _ _),
             le_trans (Tape.maxPos_set_ge _ _ _) ih.2⟩

theorem applyLoop_get_untouched (idx : Int) :
    ∀ (rv : List Value) (k : Nat) (t t' : Tape),
      applyLoop idx t rv k = .ok t' →
      ∀ p : Int, (∀ j : Nat, j < rv.length → p ≠ idx - ((k : Int) + (j : Int) + 1)) →
        t'.get p = t.get p
  | [], _, t, t', h => by
    simp only [applyLoop] at h
    cases h
    intro p _
    rfl
  | v :: rest, k, t, t', h => by
    simp only [applyLoop] at h
    split at h
    · cases h
    · intro p hp
      have hrec := applyLoop_get_untouched idx rest (k + 1) _ t' h p (by
        intro j hj
        have h2 := hp (j + 1) (by simpa using Nat.succ_lt_succ hj)
        intro hcontra
        apply h2
        rw [hcontra]
        push_cast
        ring)
      rw [hrec]
      apply Tape.get_set_ne
      have h0 := hp 0 (by simp)
      intro hcontra
      apply h0
      rw [hcontra]
      push_cast
      ring

theorem applyLoop_get_touched (idx : Int) :
    ∀ (rv : List Value) (k : Nat) (t t' : Tape),
      applyLoop idx t rv k = .ok t' →
      ∀ j : Nat, j < rv.length →
        rv.getD j 0 ≤ t.get (idx - ((k : Int) + (j : Int) + 1)) ∧
        t'.get (idx - ((k : Int) + (j : Int) + 1))
          = t.get (idx - ((k : Int) + (j : Int) + 1)) - rv.getD j 0
  | [], _, t, t', h => by
    intro j hj
    exact absurd hj (by simp)
  | v :: rest, k, t, t', h => by
    simp only [applyLoop] at h
    split at h
    · cases h
    · next hguard =>
      intro j hj
      cases j with
      | zero =>
        have hq : idx - ((k : Int) + ((0 : Nat) : Int) + 1) = idx - ((k : Int) + 1) := by
          push_cast
          ring
        rw [hq, List.getD_cons_zero]
        constructor
        · exact Nat.le_of_not_lt hguard
        · have huntouched := applyLoop_get_untouched idx rest (k + 1) _ t' h
            (idx - ((k : Int) + 1)) (by
              intro j2 hj2
              intro hcontra
              have : ((k : Int) + 1) = (((k + 1 : Nat) : Int) + (j2 : Int) + 1) := by
                omega
              push_cast at this
              omega)
          rw [huntouched, Tape.get_set_self]
      | succ j2 =>
        have hpos : idx - ((k : Int) + ((j2 + 1 : Nat) : Int) + 1)
            = idx - (((k + 1 : Nat) : Int) + (j2 : Int) + 1) := by
          push_cast
          ring
        have ih := applyLoop_get_touched idx rest (k + 1) _ t' h j2 (by
          simpa using Nat.lt_of_succ_lt_succ hj)
        have hne : idx - (((k + 1 : Nat) : Int) + (j2 : Int) + 1) ≠ idx - ((k : Int) + 1) := by
          push_cast
          omega
        rw [Tape.get_set_ne _ _ _ _ hne] at ih
        rw [hpos, List.getD_cons_succ]
        exact ih

theorem applyLoop_inWin (idx : Int) :
    ∀ (rv : List Value) (k : Nat) (t t' : Tape),
      applyLoop idx t rv k = .ok t' →
      ∀ j : Nat, j < rv.length → t'.inWin (idx - ((k : Int) + (j : Int) + 1))
  | [], _, t, t', h => by
    intro j hj
    exact absurd hj (by simp)
  | v :: rest, k, t, t', h => by
    simp only [applyLoop] at h
    split at h
    · cases h
    · intro j hj
      have hwin := applyLoop_window idx rest (k + 1) _ t' h
      cases j with
      | zero =>
        have hq : idx - ((k : Int) + ((0 : Nat) : Int) + 1) = idx - ((k : Int) + 1) := by
          push_cast
          ring
        rw [hq]
        have hself := Tape.inWin_set_self t (idx - ((k : Int) + 1))
          (t.get (idx - ((k : Int) + 1)) - v)
        exact ⟨le_trans hwin.1 hself.1, lt_of_lt_of_le hself.2 hwin.2⟩
      | succ j2 =>
        have hpos : idx - ((k : Int) + ((j2 + 1 : Nat) : Int) + 1)
            = idx - (((k + 1 : Nat) : Int) + (j2 : Int) + 1) := by
          push_cast
          ring
        rw [hpos]
        exact applyLoop_inWin idx rest (k + 1) _ t' h j2 (by
          simpa using Nat.lt_of_succ_lt_succ hj)

theorem applyLoop_error_elim (idx : Int) :
    ∀ (rv : List Value) (k : Nat) (t : Tape) (e : ApplyRuleError),
      applyLoop idx t rv k = .error e →
      ∃ j : Nat, j < rv.length ∧
        (∀ j2 : Nat, j2 < j →
          rv.getD j2 0 ≤ t.get (idx - ((k : Int) + (j2 : Int) + 1))) ∧
        t.get (idx - ((k : Int) + (j : Int) + 1)) < rv.getD j 0 ∧
        e = ⟨idx, k + j, rv.getD j 0, t.get (idx - ((k : Int) + (j : Int) + 1))⟩
  | [], _, t, e, h => by
    simp only [applyLoop] at h
    cases h
  | v :: rest, k, t, e, h => by
    simp only [applyLoop] at h
    split at h
    · next hguard =>
      cases h
      refine ⟨0, by simp, by omega, ?_, ?_⟩
      · simpa using hguard
      · simp
    · next hguard =>
      obtain ⟨j2, hj2, hearlier, hviol, hfields⟩ :=
        applyLoop_error_elim idx rest (k + 1) _ e h
      refine ⟨j2 + 1, by simpa using Nat.succ_lt_succ hj2, ?_, ?_, ?_⟩
      · intro j3 hj3
        cases j3 with
        | zero =>
          have hq : idx - ((k : Int) + ((0 : Nat) : Int) + 1) = idx - ((k : Int) + 1) := by
            push_cast
            ring
          rw [hq, List.getD_cons_zero]
          exact Nat.le_of_not_lt hguard
        | succ j4 =>
          have hpos : idx - ((k : Int) + ((j4 + 1 : Nat) : Int) + 1)
              = idx - (((k + 1 : Nat) : Int) + (j4 : Int) + 1) := by
            push_cast
            ring
          have h4 := hearlier j4 (by omega)
          have hne : idx - (((k + 1 : Nat) : Int) + (j4 : Int) + 1)
              ≠ idx - ((k : Int) + 1) := by
            push_cast
            omega
          rw [Tape.get_set_ne _ _ _ _ hne] at h4
          rw [hpos, List.getD_cons_succ]
          exact h4
      · have hpos : idx - ((k : Int) + ((j2 + 1 : Nat) : Int) + 1)
            = idx - (((k + 1 : Nat) : Int) + (j2 : Int) + 1) := by
          push_cast
          ring
        have hne : idx - (((k + 1 : Nat) : Int) + (j2 : Int) + 1)
            ≠ idx - ((k : Int) + 1) := by
          push_cast
          omega
        rw [Tape.get_set_ne _ _ _ _ hne] at hviol
        rw [hpos, List.getD_cons_succ]
        exact hviol
      · have hpos : idx - ((k : Int) + ((j2 + 1 : Nat) : Int) + 1)
            = idx - (((k + 1 : Nat) : Int) + (j2 : Int) + 1) := by
          push_cast
          ring
        have hne : idx - (((k + 1 : Nat) : Int) + (j2 : Int) + 1)
            ≠ idx - ((k : Int) + 1) := by
          push_cast
          omega
        rw [Tape.get_set_ne _ _ _ _ hne] at hfields
        rw [hpos, List.getD_cons_succ, hfields]
        have : k + 1 + j2 = k + (j2 + 1) := by omega
        rw [this]

theorem applyLoop_error_intro (idx : Int) :
    ∀ (rv : List Value) (k : Nat) (t : Tape),
      (∃ j : Nat, j < rv.length ∧ t.get (idx - ((k : Int) + (j : Int) + 1)) < rv.getD j 0) →
      ∃ e, applyLoop idx t rv k = .error e
  | [], _, t, hex => by
    obtain ⟨j, hj, _⟩ := hex
    exact absurd hj (by simp)
  | v :: rest, k, t, hex => by
    by_cases hguard : t.get (idx - ((k : Int) + 1)) < v
    · refine ⟨⟨idx, k, v, t.get (idx - ((k : Int) + 1))⟩, ?_⟩
      simp only [applyLoop]
      rw [if_pos hguard]
    · obtain ⟨j, hj, hviol⟩ := hex
      cases j with
      | zero =>
        exfalso
        apply hguard
        have hq : idx - ((k : Int) + ((0 : Nat) : Int) + 1) = idx - ((k : Int) + 1) := by
          push_cast
          ring
        rw [hq, List.getD_cons_zero] at hviol
        exact hviol
      | succ j2 =>
        have hpos : idx - ((k : Int) + ((j2 + 1 : Nat) : Int) + 1)
            = idx - (((k + 1 : Nat) : Int) + (j2 : Int) + 1) := by
          push_cast
          ring
        rw [hpos, List.getD_cons_succ] at hviol
        have hne : idx - (((k + 1 : Nat) : Int) + (j2 : Int) + 1)
            ≠ idx - ((k : Int) + 1) := by
          push_cast
          omega
        obtain ⟨e, he⟩ := applyLoop_error_intro idx rest (k + 1)
          (t.set (idx - ((k : Int) + 1)) (t.get (idx - ((k : Int) + 1)) - v))
          ⟨j2, by simp only [List.length_cons] at hj; omega,
            by rw [Tape.get_set_ne _ _ _ _ hne]; exact hviol⟩
        refine ⟨e, ?_⟩
        simp only [applyLoop]
        rw [if_neg hguard]
        exact he

theorem apply_in_place_ok_elim (r : Rule) (t t' : Tape) (idx : Int)
    (h : t.apply_in_place r idx = some (.ok t')) :
    r.values.length ≠ 0 ∧
      applyLoop idx (t.set idx (t.get idx + 1)) r.values 0 = .ok t' := by
  unfold Tape.apply_in_place at h
  split at h
  · cases h
  · next hlen => exact ⟨hlen, by injection h⟩

theorem apply_get_self (r : Rule) (t t' : Tape) (idx : Int)
    (h : t.apply_in_place r idx = some (.ok t')) :
    t'.get idx = t.get idx + 1 := by
  obtain ⟨hlen, hloop⟩ := apply_in_place_ok_elim r t t' idx h
  have huntouched := applyLoop_get_untouched idx r.values 0 _ t' hloop idx (by
    intro j hj
    push_cast
    omega)
  rw [huntouched, Tape.get_set_self]

theorem apply_get_decremented (r : Rule) (t t' : Tape) (idx : Int)
    (h : t.apply_in_place r idx = some (.ok t')) (j : Nat) (hj : j < r.values.length) :
    r.values.getD j 0 ≤ t.get (idx - ((j : Int) + 1)) ∧
      t'.get (idx - ((j : Int) + 1))
        = t.get (idx - ((j : Int) + 1)) - r.values.getD j 0 := by
  obtain ⟨hlen, hloop⟩ := apply_in_place_ok_elim r t t' idx h
  have htouched := applyLoop_get_touched idx r.values 0 _ t' hloop j hj
  have hq : idx - (((0 : Nat) : Int) + (j : Int) + 1) = idx - ((j : Int) + 1) := by
    push_cast
    ring
  rw [hq] at htouched
  have hne : idx - ((j : Int) + 1) ≠ idx := by omega
  rw [Tape.get_set_ne _ _ _ _ hne] at htouched
  exact htouched

theorem apply_get_untouched (r : Rule) (t t' : Tape) (idx : Int)
    (h : t.apply_in_place r idx = some (.ok t')) (p : Int) (hp1 : p ≠ idx)
    (hp2 : ∀ j : Nat, j < r.values.length → p ≠ idx - ((j : Int) + 1)) :
    t'.get p = t.get p := by
  obtain ⟨hlen, hloop⟩ := apply_in_place_ok_elim r t t' idx h
  have huntouched := applyLoop_get_untouched idx r.values 0 _ t' hloop p (by
    intro j hj
    have h2 := hp2 j hj
    push_cast
    push_cast at h2
    omega)
  rw [huntouched, Tape.get_set_ne _ _ _ _ hp1]

theorem apply_window (r : Rule) (t t' : Tape) (idx : Int)
    (h : t.apply_in_place r idx = some (.ok t')) :
    t'.minPos ≤ t.minPos ∧ t.maxPos ≤ t'.maxPos := by
  obtain ⟨hlen, hloop⟩ := apply_in_place_ok_elim r t t' idx h
  have hw := applyLoop_window idx r.values 0 _ t' hloop
  exact ⟨le_trans hw.1 (Tape.minPos_set_le _ _ _),
         le_trans (Tape.maxPos_set_ge _ _ _) hw.2⟩

/-! ## Exact value preservation of `apply` -/

theorem ruleDebt_scale {K : Type} [Field K] (b : K) (hb : b ≠ 0) :
    ∀ (rv : List Value) (k : Nat) (c d : Int),
      ruleDebt rv c k b = b ^ (c - d) * ruleDebt rv d k b
  | [], _, c, d => by simp [ruleDebt]
  | v :: rest, k, c, d => by
    simp only [ruleDebt]
    rw [ruleDebt_scale b hb rest (k + 1) c d]
    have hz : b ^ (c - ((k : Int) + 1)) = b ^ (c - d) * b ^ (d - ((k : Int) + 1)) := by
      rw [← zpow_add₀ hb]
      congr 1
      ring
    rw [hz]
    ring

theorem applyLoop_windowValue {K : Type} [Field K] (b : K) (idx : Int) :
    ∀ (rv : List Value) (k : Nat) (t t' : Tape),
      applyLoop idx t rv k = .ok t' →
      ∀ lo hi : Int,
        (∀ j : Nat, j < rv.length →
          (idx - ((k : Int) + (j : Int) + 1)) ∈ Finset.Ico lo hi) →
        windowValue t' lo hi b = windowValue t lo hi b - ruleDebt rv idx k b
  | [], _, t, t', h => by
    simp only [applyLoop] at h
    cases h
    intro lo hi _
    simp [ruleDebt]
  | v :: rest, k, t, t', h => by
    simp only [applyLoop] at h
    split at h
    · cases h
    · next hguard =>
      intro lo hi hmem
      have hmem0 := hmem 0 (by simp)
      have hq : idx - ((k : Int) + ((0 : Nat) : Int) + 1) = idx - ((k : Int) + 1) := by
        push_cast
        ring
      rw [hq] at hmem0
      have hrec := applyLoop_windowValue b idx rest (k + 1) _ t' h lo hi (by
        intro j hj
        have hm := hmem (j + 1) (by simp only [List.length_cons]; omega)
        have hpos : idx - ((k : Int) + ((j + 1 : Nat) : Int) + 1)
            = idx - (((k + 1 : Nat) : Int) + (j : Int) + 1) := by
          push_cast
          ring
        rw [hpos] at hm
        exact hm)
      rw [hrec, windowValue_set t (idx - ((k : Int) + 1)) _ lo hi b hmem0]
      have hle : v ≤ t.get (idx - ((k : Int) + 1)) := Nat.le_of_not_lt hguard
      have hcast : ((t.get (idx - ((k : Int) + 1)) - v : Nat) : K)
          = (t.get (idx - ((k : Int) + 1)) : K) - (v : K) := Nat.cast_sub hle
      rw [hcast]
      simp only [ruleDebt]
      ring

theorem apply_in_place_value {K : Type} [Field K] (b : K) (r : Rule) (t t' : Tape)
    (idx : Int) (hb : b ≠ 0)
    (hchar : b ^ ((r.values.length : Nat) : Int)
      = ruleDebt r.values ((r.values.length : Nat) : Int) 0 b)
    (h : t.apply_in_place r idx = some (.ok t')) :
    t'.value b = t.value b := by
  obtain ⟨hlen, hloop⟩ := apply_in_place_ok_elim r t t' idx h
  have hw := applyLoop_window idx r.values 0 _ t' hloop
  have hsetwin := Tape.inWin_set_self t idx (t.get idx + 1)
  have hidxmem : idx ∈ Finset.Ico t'.minPos t'.maxPos := by
    simp only [Finset.mem_Ico]
    exact ⟨le_trans hw.1 hsetwin.1, lt_of_lt_of_le hsetwin.2 hw.2⟩
  have hloopval := applyLoop_windowValue b idx r.values 0 _ t' hloop
    t'.minPos t'.maxPos (by
      intro j hj
      have hwin := applyLoop_inWin idx r.values 0 _ t' hloop j hj
      simpa only [Finset.mem_Ico, Tape.inWin] using hwin)
  have hset := windowValue_set t idx (t.get idx + 1) t'.minPos t'.maxPos b hidxmem
  have hdebt : ruleDebt r.values idx 0 b = b ^ idx := by
    rw [ruleDebt_scale b hb r.values 0 idx ((r.values.length : Nat) : Int), ← hchar,
      ← zpow_add₀ hb]
    congr 1
    ring
  have hvalt : windowValue t t'.minPos t'.maxPos b = t.value b := by
    apply windowValue_eq_value
    · exact le_trans hw.1 (Tape.minPos_set_le _ _ _)
    · exact le_trans (Tape.maxPos_set_ge _ _ _) hw.2
  rw [Tape.value_eq_windowValue t' b, hloopval, hset, hvalt, hdebt]
  push_cast
  ring

/-! ## Value preservation through the `standardize` scan -/

theorem standardizeLoop_value {K : Type} [Field K] (b : K) (r : Rule) (hb : b ≠ 0)
    (hchar : b ^ ((r.values.length : Nat) : Int)
      = ruleDebt r.values ((r.values.length : Nat) : Int) 0 b) :
    ∀ (ps : List Int) (t : Tape) (cur : Int) (t2 : Tape) (cur2 : Int),
      standardizeLoop r ps t cur = some (t2, cur2) → t2.value b = t.value b
  | [], t, cur, t2, cur2, h => by
    simp only [standardizeLoop] at h
    cases h
    rfl
  | i :: rest, t, cur, t2, cur2, h => by
    simp only [standardizeLoop] at h
    split at h
    · cases h
    · split at h
      · exact standardizeLoop_value b r hb hchar rest t _ t2 cur2 h
      · split at h
        · split at h
          · next t3 heq =>
            rw [standardizeLoop_value b r hb hchar rest t3 i t2 cur2 h]
            exact apply_in_place_value b r t t3 cur hb hchar heq
          · cases h
        · cases h

theorem standardize_in_place_value {K : Type} [Field K] (b : K) (r : Rule)
    (t t' : Tape) (hb : b ≠ 0)
    (hchar : b ^ ((r.values.length : Nat) : Int)
      = ruleDebt r.values ((r.values.length : Nat) : Int) 0 b)
    (h : t.standardize_in_place r = some t') :
    t'.value b = t.value b := by
  unfold Tape.standardize_in_place at h
  split at h
  · cases h
  · split at h
    · cases h
    · split at h
      · cases h
      · next t2 cur hloop =>
        split at h
        · next t3 happly =>
          split at h
          · cases h
            have hv2 : t2.value b = t.value b :=
              standardizeLoop_value b r hb hchar _ t _ t2 cur hloop
            split at happly
            · rw [apply_in_place_value b r t2 t' cur hb hchar happly]
              exact hv2
            · injection happly with happly2
              injection happly2 with happly3
              rw [← happly3]
              exact hv2
          · cases h
        · cases h

/-! ## Rule construction lemmas -/

theorem hasAdjacentIncrease_cons_false (a : Value) (l : List Value)
    (h : hasAdjacentIncrease (a :: l) = false) : hasAdjacentIncrease l = false := by
  cases l with
  | nil => rfl
  | cons b rest =>
    simp only [hasAdjacentIncrease, Bool.or_eq_false_iff] at h
    exact h.2

theorem le_head_of_noIncrease :
    ∀ (a : Value) (l : List Value), hasAdjacentIncrease (a :: l) = false →
      ∀ x ∈ l, x ≤ a
  | _, [], _ => by simp
  | a, b :: rest, h => by
    simp only [hasAdjacentIncrease, Bool.or_eq_false_iff, decide_eq_false_iff_not,
      Nat.not_lt] at h
    intro x hx
    rcases List.mem_cons.1 hx with hxb | hxrest
    · subst hxb
      exact h.1
    · have hxb := le_head_of_noIncrease b rest h.2 x hxrest
      exact le_trans hxb h.1

theorem stripTrailingZeros_eq_nil_of_all_zero :
    ∀ l : List Value, (∀ x ∈ l, x = 0) → stripTrailingZeros l = []
  | [], _ => rfl
  | a :: l, h => by
    have hl := stripTrailingZeros_eq_nil_of_all_zero l (fun x hx => h x (List.mem_cons_of_mem a hx))
    have ha : a = 0 := h a (List.mem_cons_self a l)
    simp [stripTrailingZeros, hl, ha]

theorem takeWhile_eq_stripTrailingZeros :
    ∀ l : List Value, hasAdjacentIncrease l = false →
      l.takeWhile (fun v => decide (v ≠ 0)) = stripTrailingZeros l
  | [], _ => rfl
  | a :: l, h => by
    have hl := hasAdjacentIncrease_cons_false a l h
    by_cases ha : a = 0
    · subst ha
      have hzero : ∀ x ∈ l, x = 0 := by
        intro x hx
        have hx0 := le_head_of_noIncrease 0 l h x hx
        exact Nat.le_zero.mp hx0
      rw [List.takeWhile_cons_of_neg (by simp)]
      rw [stripTrailingZeros_eq_nil_of_all_zero (0 :: l) (by
        intro x hx
        rcases List.mem_cons.1 hx with hx0 | hxl
        · exact hx0
        · exact hzero x hxl)]
    · rw [List.takeWhile_cons_of_pos (by simpa using ha),
        takeWhile_eq_stripTrailingZeros l hl]
      cases hs : stripTrailingZeros l with
      | nil => simp [stripTrailingZeros, hs, ha]
      | cons c cs => simp [stripTrailingZeros, hs]

theorem noIncrease_iff_chain :
    ∀ l : List Value,
      hasAdjacentIncrease l = false ↔ List.Chain' (fun a b => b ≤ a) l
  | [] => by simp [hasAdjacentIncrease]
  | [a] => by simp [hasAdjacentIncrease]
  | a :: b :: rest => by
    rw [List.chain'_cons, ← noIncrease_iff_chain (b :: rest)]
    simp only [hasAdjacentIncrease, Bool.or_eq_false_iff, decide_eq_false_iff_not, Nat.not_lt]

theorem takeWhile_ne_zero_head :
    ∀ (l : List Value) (a : Value) (rest : List Value),
      l.takeWhile (fun v => decide (v ≠ 0)) = a :: rest → a ≠ 0
  | [], a, rest => by simp
  | x :: xs, a, rest => by
    intro h
    by_cases hx : x ≠ 0
    · rw [List.takeWhile_cons_of_pos (by simpa using hx)] at h
      injection h with h1 _
      rw [← h1]
      exact hx
    · rw [List.takeWhile_cons_of_neg (by simpa using hx)] at h
      cases h

theorem from_array_eq_none_iff (l : List Value) :
    Rule.from_array l = none
      ↔ (hasAdjacentIncrease l = true ∨ stripTrailingZeros l = []) := by
  unfold Rule.from_array
  by_cases hinc : hasAdjacentIncrease l
  · simp [hinc]
  · rw [if_neg hinc]
    rw [takeWhile_eq_stripTrailingZeros l (by simpa using hinc)]
    by_cases hnil : stripTrailingZeros l = []
    · simp [hnil]
    · simp [hnil, hinc]

theorem from_array_eq_some_elim (l : List Value) (r : Rule)
    (h : Rule.from_array l = some r) :
    hasAdjacentIncrease l = false ∧ r.values = stripTrailingZeros l := by
  simp only [Rule.from_array] at h
  split at h
  · cases h
  · next hinc =>
    rw [takeWhile_eq_stripTrailingZeros l (by simpa using hinc)] at h
    split at h
    · cases h
    · injection h with h2
      exact ⟨by simpa using hinc, by rw [← h2]⟩

/-! ## Tape equality (`PartialEq`) lemmas -/

theorem sideBeq_eq_true_iff (x y : List Value) :
    sideBeq x y = true ↔
      (x.take (min x.length y.length) = y.take (min x.length y.length) ∧
        (∀ v ∈ x.drop (min x.length y.length), v = 0) ∧
        (∀ v ∈ y.drop (min x.length y.length), v = 0)) := by
  simp [sideBeq]

theorem sideBeq_of_getD (x y : List Value)
    (h : ∀ i : Nat, x.getD i 0 = y.getD i 0) : sideBeq x y = true := by
  rw [sideBeq_eq_true_iff]
  refine ⟨?_, ?_, ?_⟩
  · apply List.ext_getElem
    · simp
    · intro i h1 h2
      have hx : i < x.length := by simp at h1; omega
      have hy : i < y.length := by simp at h1; omega
      have hi := h i
      rw [List.getD_eq_getElem?_getD, List.getD_eq_getElem?_getD,
        List.getElem?_eq_getElem hx, List.getElem?_eq_getElem hy] at hi
      simp only [Option.getD_some] at hi
      rw [List.getElem_take, List.getElem_take]
      exact hi
  · intro v hvx
    obtain ⟨j, hj, hjv⟩ := List.mem_iff_getElem.1 hvx
    have hjx : min x.length y.length + j < x.length := by
      simp at hj
      omega
    have hylen : y.length ≤ min x.length y.length + j := by
      simp at hj
      omega
    have hi := h (min x.length y.length + j)
    rw [List.getD_eq_getElem?_getD, List.getD_eq_getElem?_getD,
      List.getElem?_eq_getElem hjx, List.getElem?_eq_none hylen] at hi
    simp only [Option.getD_some, Option.getD_none] at hi
    rw [List.getElem_drop] at hjv
    rw [← hjv]
    exact hi
  · intro v hvy
    obtain ⟨j, hj, hjv⟩ := List.mem_iff_getElem.1 hvy
    have hjy : min x.length y.length + j < y.length := by
      simp at hj
      omega
    have hxlen : x.length ≤ min x.length y.length + j := by
      simp at hj
      omega
    have hi := h (min x.length y.length + j)
    rw [List.getD_eq_getElem?_getD, List.getD_eq_getElem?_getD,
      List.getElem?_eq_getElem hjy, List.getElem?_eq_none hxlen] at hi
    simp only [Option.getD_some, Option.getD_none] at hi
    rw [List.getElem_drop] at hjv
    rw [← hjv]
    exact hi.symm

theorem tape_beq_of_get (a b : Tape) (h : ∀ p : Int, a.get p = b.get p) :
    a.beq b = true := by
  unfold Tape.beq
  rw [Bool.and_eq_true]
  constructor
  · apply sideBeq_of_getD
    intro i
    have hi := h (i : Int)
    unfold Tape.get at hi
    simpa using hi
  · apply sideBeq_of_getD
    intro i
    have hi := h (-(i : Int) - 1)
    unfold Tape.get at hi
    rw [if_neg (by omega), if_neg (by omega)] at hi
    have harg : (-(-(i : Int) - 1) - 1).toNat = i := by omega
    rw [harg] at hi
    exact hi

theorem getD_append_replicate_zero (l : List Value) (k i : Nat) :
    (l ++ List.replicate k 0).getD i 0 = l.getD i 0 := by
  rw [List.getD_eq_getElem?_getD, List.getD_eq_getElem?_getD]
  by_cases hi : i < l.length
  · rw [List.getElem?_append_left hi]
  · rw [List.getElem?_append_right (by omega), List.getElem?_eq_none (n := i) (by omega)]
    rw [List.getElem?_replicate]
    by_cases h2 : i - l.length < k <;> simp [h2]

/-! ## Tape addition lemmas -/

theorem addSide_nil_right (x : List Value) : addSide x [] = x := by
  simp [addSide]

theorem addSide_nil_cons (b : Value) (y : List Value) :
    addSide [] (b :: y) = b :: addSide [] y := by
  simp [addSide, List.replicate_succ]

theorem addSide_cons_cons (a b : Value) (x y : List Value) :
    addSide (a :: x) (b :: y) = (a + b) :: addSide x y := by
  simp [addSide, Nat.succ_sub_succ]

theorem addSide_getD :
    ∀ (x y : List Value) (i : Nat), (addSide x y).getD i 0 = x.getD i 0 + y.getD i 0
  | [], [], i => by simp [addSide_nil_right]
  | [], b :: y, i => by
    rw [addSide_nil_cons]
    cases i with
    | zero => simp
    | succ j => simpa using addSide_getD [] y j
  | a :: x, [], i => by
    rw [addSide_nil_right]
    simp
  | a :: x, b :: y, i => by
    rw [addSide_cons_cons]
    cases i with
    | zero => simp
    | succ j => simpa using addSide_getD x y j
termination_by x y _ => x.length + y.length

theorem tape_add_get (a b : Tape) (p : Int) :
    (a.add b).get p = a.get p + b.get p := by
  unfold Tape.add Tape.get
  dsimp only
  by_cases hp : 0 ≤ p
  · rw [if_pos hp, if_pos hp, if_pos hp]
    exact addSide_getD _ _ _
  · rw [if_neg hp, if_neg hp, if_neg hp]
    exact addSide_getD _ _ _

theorem from_array_values_ne_nil (l : List Value) (r : Rule)
    (h : Rule.from_array l = some r) : r.values ≠ [] := by
  obtain ⟨hinc, hval⟩ := from_array_eq_some_elim l r h
  intro hnil
  rw [hval] at hnil
  have hnone : Rule.from_array l = none := (from_array_eq_none_iff l).2 (Or.inr hnil)
  rw [h] at hnone
  cases hnone

theorem from_array_len_ne_zero (l : List Value) (r : Rule)
    (h : Rule.from_array l = some r) : r.values.length ≠ 0 := by
  have := from_array_values_ne_nil l r h
  simpa [List.length_eq_zero] using this

/-! ## Claim theorems -/

/-- C1 counterexample: the claim "for every tape t satisfying the validity
precondition, t.standardize(r) returns a tape with the same value under r as
t" is false as stated: the valid tape with negative-side digits `[1,1]` under
rule `[1,1]` makes `standardize` hit the trailing
`assert!(cur - min < rule_len)` (modelled by `none`), so no tape is returned
at all. -/
theorem c1_standardize_counterexample :
    Rule.from_array [1, 1] = some ⟨[1, 1]⟩ ∧
    (Tape.from_arrays [] [1, 1]).is_valid ⟨[1, 1]⟩ = true ∧
    (Tape.from_arrays [] [1, 1]).standardize ⟨[1, 1]⟩ = none := by
  refine ⟨by decide, by decide, by decide⟩

/-- C1 (amended): tape value is preserved by the carry operations, with the
value taken at any base `b ≠ 0` satisfying the rule's characteristic equation
`b ^ n = Σ r[i] · b ^ (n-1-i)` (the equation defining `Rule::base`; the `f64`
rounding tolerance of the spec becomes exact equality over a field): (1) for
every rule, tape and position where `apply` succeeds the value is unchanged,
and (2) for every tape on which `standardize` returns normally (it panics on
some valid tapes, see the counterexample) the value is unchanged. -/
theorem c1_value_preserved {K : Type} [Field K] (b : K) (r : Rule) (hb : b ≠ 0)
    (hchar : b ^ ((r.values.length : Nat) : Int)
      = ruleDebt r.values ((r.values.length : Nat) : Int) 0 b) :
    (∀ (t t' : Tape) (idx : Int),
      t.apply r idx = some (.ok t') → t'.value b = t.value b) ∧
    (∀ t t' : Tape, t.standardize r = some t' → t'.value b = t.value b) := by
  constructor
  · intro t t' idx h
    exact apply_in_place_value b r t t' idx hb hchar h
  · intro t t' h
    exact standardize_in_place_value b r t t' hb hchar h

/-- C1 witness: rule `[2]` has base `2` exactly; applying it at position `0`
to the tape `([5],[2])` (digits `5; 2`, value `6`) yields `([6],[0])`, and the
value at base `2` is unchanged; standardizing `([1],[1])` returns normally and
also preserves the value. -/
theorem c1_value_preserved_witness :
    ((Tape.from_arrays [5] [2]).apply ⟨[2]⟩ 0 = some (.ok ⟨[6], [0]⟩)) ∧
    (Tape.mk [6] [0]).value (2 : ℚ) = (Tape.from_arrays [5] [2]).value (2 : ℚ) ∧
    ((Tape.from_arrays [1] [1]).standardize ⟨[2]⟩ = some ⟨[1], [1]⟩) ∧
    (Tape.mk [1] [1]).value (2 : ℚ) = (Tape.from_arrays [1] [1]).value (2 : ℚ) := by
  have hchar : (2 : ℚ) ^ (((Rule.mk [2]).values.length : Nat) : Int)
      = ruleDebt (Rule.mk [2]).values (((Rule.mk [2]).values.length : Nat) : Int) 0 2 := by
    simp [ruleDebt]
  refine ⟨by decide, ?_, by decide, ?_⟩
  · exact (c1_value_preserved (2 : ℚ) ⟨[2]⟩ (by norm_num) hchar).1
      (Tape.from_arrays [5] [2]) ⟨[6], [0]⟩ 0 (by decide)
  · exact (c1_value_preserved (2 : ℚ) ⟨[2]⟩ (by norm_num) hchar).2
      (Tape.from_arrays [1] [1]) ⟨[1], [1]⟩ (by decide)

/-- C2 (code bug): `standardize` does not produce a canonical fixed point.
On the valid tape `1 1 1 1` under rule `[1,1]` it returns the tape
`1 0 0 1 1`, which `is_standard` rejects (its scan ends with a fully
dominating window of exactly the rule length at the tape's edge), and
re-standardizing that result hits `assert!(cur - min < rule_len)` (modelled
by `none`), so idempotence fails as well.  The root cause is the final
boundary condition `cur - min - 1 == rule_len` (tape.rs line 159), which can
never hold (the scan leaves `cur - min ≤ rule_len`), where `is_standard` and
the spec use `cur - min == rule_len`. -/
theorem c2_standardize_not_canonical :
    Rule.from_array [1, 1] = some ⟨[1, 1]⟩ ∧
    (Tape.from_arrays [1, 1, 1, 1] []).is_valid ⟨[1, 1]⟩ = true ∧
    (Tape.from_arrays [1, 1, 1, 1] []).standardize ⟨[1, 1]⟩
      = some ⟨[1, 1, 0, 0, 1], []⟩ ∧
    (Tape.mk [1, 1, 0, 0, 1] []).is_standard ⟨[1, 1]⟩ = false ∧
    (Tape.mk [1, 1, 0, 0, 1] []).standardize ⟨[1, 1]⟩ = none := by
  refine ⟨by decide, by decide, by decide, by decide, by decide⟩

/-- C3 (code bug): `standardize` does not terminate normally on every valid
tape.  On the valid tape `1 1` under rule `[1,1]` the scan ends with
`cur - min = rule_len = 2`; the special-cased final boundary application is
guarded by `cur - min - 1 == rule_len` (tape.rs line 159), which is false, so
no final `apply` happens and the trailing `assert!(cur - min < rule_len)`
fails (modelled by `none`). -/
theorem c3_standardize_assert_fails :
    Rule.from_array [1, 1] = some ⟨[1, 1]⟩ ∧
    (Tape.from_arrays [1, 1] []).is_valid ⟨[1, 1]⟩ = true ∧
    (Tape.from_arrays [1, 1] []).standardize ⟨[1, 1]⟩ = none := by
  refine ⟨by decide, by decide, by decide⟩

/-- C4: when `apply(rule, position)` succeeds, the resulting tape's digit at
`position` is the original digit plus one, the digit at `position - (i+1)` is
the original digit minus `rule[i]` for every `i` in `0..rule.length()`, and
every other digit is unchanged. -/
theorem c4_apply_digits (l : List Value) (r : Rule) (_hr : Rule.from_array l = some r)
    (t t' : Tape) (idx : Int) (h : t.apply r idx = some (.ok t')) :
    t'.get idx = t.get idx + 1 ∧
    (∀ i : Nat, i < r.len →
      t'.get (idx - ((i : Int) + 1)) = t.get (idx - ((i : Int) + 1)) - r.index i) ∧
    (∀ p : Int, p ≠ idx → (∀ i : Nat, i < r.len → p ≠ idx - ((i : Int) + 1)) →
      t'.get p = t.get p) := by
  refine ⟨apply_get_self r t t' idx h, ?_, ?_⟩
  · intro i hi
    have hd := apply_get_decremented r t t' idx h i hi
    have hix : r.index i = r.values.getD i 0 := (List.getD_eq_getElem?_getD _ _ _).symm
    rw [hix]
    exact hd.2
  · intro p hp1 hp2
    exact apply_get_untouched r t t' idx h p hp1 hp2

/-- C4 witness: rule `[2]` applied to the tape `([5],[2])` at position `0`
succeeds with result `([6],[0])`: digit at 0 goes from 5 to 6, digit at -1
goes from 2 to 0 = 2 - rule[0], and an uninvolved position (5) is unchanged. -/
theorem c4_apply_digits_witness :
    (Tape.mk [6] [0]).get 0 = (Tape.from_arrays [5] [2]).get 0 + 1 ∧
    (Tape.mk [6] [0]).get (0 - (((0 : Nat) : Int) + 1))
      = (Tape.from_arrays [5] [2]).get (0 - (((0 : Nat) : Int) + 1)) - (Rule.mk [2]).index 0 ∧
    (Tape.mk [6] [0]).get 5 = (Tape.from_arrays [5] [2]).get 5 := by
  have hc4 := c4_apply_digits [2] ⟨[2]⟩ (by decide)
    (Tape.from_arrays [5] [2]) ⟨[6], [0]⟩ 0 (by decide)
  refine ⟨hc4.1, hc4.2.1 0 (by decide), hc4.2.2 5 (by decide) ?_⟩
  intro i hi
  have hi1 : i = 0 := Nat.lt_one_iff.1 hi
  subst hi1
  decide

/-- C5: `apply(rule, position)` fails if and only if some decrement would
drive a digit below zero (`∃ i < rule.length, tape[position-(i+1)] < rule[i]`),
and the returned error carries the application position, the first (minimal)
offending rule index, the rule value and the tape value there.  (In the
persistent model `apply` works on a copy, so the original tape is untouched by
construction, matching the `clone` in the source.) -/
theorem c5_apply_error (l : List Value) (r : Rule) (hr : Rule.from_array l = some r)
    (t : Tape) (idx : Int) :
    ((∃ e, t.apply r idx = some (.error e)) ↔
      ∃ i : Nat, i < r.len ∧ t.get (idx - ((i : Int) + 1)) < r.index i) ∧
    (∀ e, t.apply r idx = some (.error e) →
      ∃ i : Nat, i < r.len ∧
        (∀ i2 : Nat, i2 < i → r.index i2 ≤ t.get (idx - ((i2 : Int) + 1))) ∧
        t.get (idx - ((i : Int) + 1)) < r.index i ∧
        e = ⟨idx, i, r.index i, t.get (idx - ((i : Int) + 1))⟩) := by
  have hlen := from_array_len_ne_zero l r hr
  have happ : ∀ e, (t.apply r idx = some (.error e)
      ↔ applyLoop idx (t.set idx (t.get idx + 1)) r.values 0 = .error e) := by
    intro e
    unfold Tape.apply Tape.apply_in_place
    rw [if_neg hlen]
    constructor
    · intro h2
      injection h2
    · intro h2
      rw [h2]
  have hpos : ∀ i : Nat, idx - (((0 : Nat) : Int) + (i : Int) + 1) = idx - ((i : Int) + 1) := by
    intro i
    push_cast
    ring
  have hget0 : ∀ i : Nat,
      (t.set idx (t.get idx + 1)).get (idx - ((i : Int) + 1)) = t.get (idx - ((i : Int) + 1)) := by
    intro i
    apply Tape.get_set_ne
    omega
  have hix : ∀ i : Nat, r.index i = r.values.getD i 0 := by
    intro i
    exact (List.getD_eq_getElem?_getD _ _ _).symm
  constructor
  · constructor
    · rintro ⟨e, he⟩
      obtain ⟨j, hj, _, hviol, _⟩ :=
        applyLoop_error_elim idx r.values 0 _ e ((happ e).1 he)
      rw [hpos j, hget0 j] at hviol
      exact ⟨j, hj, by rw [hix j]; exact hviol⟩
    · rintro ⟨i, hi, hviol⟩
      obtain ⟨e, he⟩ := applyLoop_error_intro idx r.values 0 (t.set idx (t.get idx + 1))
        ⟨i, hi, by rw [hpos i, hget0 i, ← hix i]; exact hviol⟩
      exact ⟨e, (happ e).2 he⟩
  · intro e he
    obtain ⟨j, hj, hearlier, hviol, hfields⟩ :=
      applyLoop_error_elim idx r.values 0 _ e ((happ e).1 he)
    rw [hpos j, hget0 j] at hviol hfields
    refine ⟨j, hj, ?_, by rw [hix j]; exact hviol, ?_⟩
    · intro i2 hi2
      have h2 := hearlier i2 hi2
      rw [hpos i2, hget0 i2] at h2
      rw [hix i2]
      exact h2
    · rw [hfields, hix j]
      simp

/-- C5 witness: rule `[2]` applied to the zero tape at position `0` fails,
because the digit at position `-1` is `0 < 2 = rule[0]`; the error reports
position 0, rule index 0, rule value 2 and tape value 0. -/
theorem c5_apply_error_witness :
    (∃ e, Tape.zero.apply ⟨[2]⟩ 0 = some (.error e)) ∧
    (∃ i : Nat, i < (Rule.mk [2]).len ∧
      (∀ i2 : Nat, i2 < i →
        (Rule.mk [2]).index i2 ≤ Tape.zero.get (0 - ((i2 : Int) + 1))) ∧
      Tape.zero.get (0 - ((i : Int) + 1)) < (Rule.mk [2]).index i ∧
      (⟨0, 0, 2, 0⟩ : ApplyRuleError)
        = ⟨0, i, (Rule.mk [2]).index i, Tape.zero.get (0 - ((i : Int) + 1))⟩) := by
  have hc5 := c5_apply_error [2] ⟨[2]⟩ (by decide) Tape.zero 0
  exact ⟨hc5.1.mpr ⟨0, by decide, by decide⟩, hc5.2 ⟨0, 0, 2, 0⟩ (by decide)⟩

/-- Characterization of the digit-check portion of `Rule::from_array` as
modelled: `none` exactly for inputs with an adjacent strict increase or that
strip to the empty list, and on `some` the stored digits are the input with
trailing zeros stripped, hence non-empty, non-increasing, with non-zero first
element.  (This is a statement about the model, which omits the
`calculate_rule_base` call; see `Rule.from_array` and the C6 theorem.) -/
theorem from_array_digit_checks (l : List Value) :
    (Rule.from_array l = none ↔
      (hasAdjacentIncrease l = true ∨ stripTrailingZeros l = [])) ∧
    (∀ r : Rule, Rule.from_array l = some r →
      r.values = stripTrailingZeros l ∧ r.values ≠ [] ∧
      List.Chain' (fun a b => b ≤ a) r.values ∧ r.first ≠ 0) := by
  refine ⟨from_array_eq_none_iff l, ?_⟩
  intro r hr
  obtain ⟨hinc, hval⟩ := from_array_eq_some_elim l r hr
  have hne : r.values ≠ [] := from_array_values_ne_nil l r hr
  refine ⟨hval, hne, ?_, ?_⟩
  · have hchain : List.Chain' (fun a b => b ≤ a) l := (noIncrease_iff_chain l).1 hinc
    have hpref : r.values <+: l := by
      rw [hval, ← takeWhile_eq_stripTrailingZeros l hinc]
      exact List.takeWhile_prefix _
    exact hchain.prefix hpref
  · cases hv : r.values with
    | nil => exact absurd hv hne
    | cons a rest =>
      have htw : l.takeWhile (fun v => decide (v ≠ 0)) = a :: rest := by
        rw [takeWhile_eq_stripTrailingZeros l hinc, ← hval, hv]
      have ha := takeWhile_ne_zero_head l a rest htw
      simpa [Rule.first, hv] using ha

theorem hasAdjacentIncrease_replicate (a : Value) :
    ∀ n : Nat, hasAdjacentIncrease (List.replicate n a) = false
  | 0 => rfl
  | 1 => rfl
  | n + 2 => by
    rw [List.replicate_succ, List.replicate_succ]
    simp only [hasAdjacentIncrease]
    rw [← List.replicate_succ, hasAdjacentIncrease_replicate a (n + 1)]
    simp

/-- C6 (code bug): the claim's "on every other input it succeeds" fails on
the program.  The input of 1100 ones passes both digit checks (no adjacent
increase; stripping removes nothing), so per the claim construction must
return a rule — and the digit-check model does — but the source's
`from_array` then calls `calculate_rule_base(values)` (rule.rs line 26),
which evaluates the characteristic polynomial at `max = 2.0` in `f64`:
`-2.0.powi(1100)` overflows to `-inf` while the coefficient sum overflows to
`+inf`, giving `NaN`, so `assert!(max_value <= 0.)` (rule.rs line 99) fails
and construction panics instead of succeeding.  The `f64` computation is
outside this integer model; this theorem verifies that the panicking input is
accepted by every modelled check. -/
theorem c6_checks_accept_panicking_input :
    hasAdjacentIncrease (List.replicate 1100 1) = false ∧
    stripTrailingZeros (List.replicate 1100 1) = List.replicate 1100 1 ∧
    List.replicate 1100 (1 : Value) ≠ [] ∧
    Rule.from_array (List.replicate 1100 1) = some ⟨List.replicate 1100 1⟩ := by
  have hinc := hasAdjacentIncrease_replicate 1 1100
  have htw : (List.replicate 1100 (1 : Value)).takeWhile (fun v => decide (v ≠ 0))
      = List.replicate 1100 1 := by
    rw [List.takeWhile_replicate]
    simp
  have hne : List.replicate 1100 (1 : Value) ≠ [] := by
    simp
  refine ⟨hinc, ?_, hne, ?_⟩
  · rw [← takeWhile_eq_stripTrailingZeros _ hinc, htw]
  · simp only [Rule.from_array]
    rw [if_neg (by rw [hinc]; simp), htw, if_neg hne]

/-- C8: tape equality ignores all-zero padding: tapes agreeing digit-wise at
every position are equal regardless of materialized lengths; the concrete
pair `([0,1,2,3],[4,5,6])` and `([1,2,3],[4,5,6,0])` are equal; and appending
zeros to either stored side leaves a tape equal to itself. -/
theorem c8_eq_ignores_zero_padding :
    (∀ a b : Tape, (∀ p : Int, a.get p = b.get p) → a.beq b = true) ∧
    Tape.beq (Tape.from_arrays [0, 1, 2, 3] [4, 5, 6])
      (Tape.from_arrays [1, 2, 3] [4, 5, 6, 0]) = true ∧
    (∀ (a : Tape) (k : Nat),
      Tape.beq ⟨a.positive_values ++ List.replicate k 0, a.negative_values⟩ a = true ∧
      Tape.beq ⟨a.positive_values, a.negative_values ++ List.replicate k 0⟩ a = true) := by
  refine ⟨tape_beq_of_get, by decide, ?_⟩
  intro a k
  constructor
  · apply tape_beq_of_get
    intro p
    unfold Tape.get
    dsimp only
    by_cases hp : 0 ≤ p
    · rw [if_pos hp, if_pos hp]
      exact getD_append_replicate_zero _ _ _
    · rw [if_neg hp, if_neg hp]
  · apply tape_beq_of_get
    intro p
    unfold Tape.get
    dsimp only
    by_cases hp : 0 ≤ p
    · rw [if_pos hp, if_pos hp]
    · rw [if_neg hp, if_neg hp]
      exact getD_append_replicate_zero _ _ _

/-- C8 witness: a concrete tape equals itself (discharging the digit-wise
hypothesis), and appending two zeros to its positive side preserves
equality. -/
theorem c8_eq_ignores_zero_padding_witness :
    Tape.beq (Tape.mk [1, 2] [3]) (Tape.mk [1, 2] [3]) = true ∧
    Tape.beq ⟨[1, 2] ++ List.replicate 2 0, [3]⟩ (Tape.mk [1, 2] [3]) = true :=
  ⟨c8_eq_ignores_zero_padding.1 (Tape.mk [1, 2] [3]) (Tape.mk [1, 2] [3]) (fun _ => rfl),
   (c8_eq_ignores_zero_padding.2.2 (Tape.mk [1, 2] [3]) 2).1⟩

/-- C9: for a constructed rule, the bracket operator `rule[i]` is total: it
returns the stored digit for `i < rule.len()` and `0` (never a panic) for
`i ≥ rule.len()`, whereas `rule.get(i)` returns no value exactly when
`i ≥ rule.len()`. -/
theorem c9_rule_indexing (l : List Value) (r : Rule) (_hr : Rule.from_array l = some r)
    (i : Nat) :
    (∀ h : i < r.len, r.index i = r.values.get ⟨i, h⟩) ∧
    (r.len ≤ i → r.index i = 0) ∧
    (r.get i = none ↔ r.len ≤ i) := by
  refine ⟨?_, ?_, ?_⟩
  · intro h
    unfold Rule.index
    rw [List.getElem?_eq_getElem h]
    rfl
  · intro h
    unfold Rule.index
    rw [List.getElem?_eq_none h]
    rfl
  · unfold Rule.get
    exact List.getElem?_eq_none_iff

/-- C9 witness: for the constructed rule `[3,2]`, `rule[0] = 3` (the stored
digit), `rule[5] = 0` with `rule.get(5) = none`. -/
theorem c9_rule_indexing_witness :
    (Rule.mk [3, 2]).index 0 = (Rule.mk [3, 2]).values.get ⟨0, by decide⟩ ∧
    (Rule.mk [3, 2]).index 5 = 0 ∧
    ((Rule.mk [3, 2]).get 5 = none ↔ (Rule.mk [3, 2]).len ≤ 5) := by
  have h0 := c9_rule_indexing [3, 2] ⟨[3, 2]⟩ (by decide) 0
  have h5 := c9_rule_indexing [3, 2] ⟨[3, 2]⟩ (by decide) 5
  exact ⟨h0.1 (by decide), h5.2.1 (by decide), h5.2.2⟩

/-- C10: tape addition is position-wise: the digit of `a + b` at every
position is the sum of the digits of `a` and `b` there (positions outside
either materialized window contribute 0; the hypothesis records the claim's
"no digit overflow" assumption, under which `u32` and `Nat` addition agree),
and consequently `a + b` equals `b + a` under tape equality. -/
theorem c10_add_pointwise :
    (∀ (a b : Tape) (p : Int), a.get p + b.get p < 2 ^ 32 →
      (a.add b).get p = a.get p + b.get p) ∧
    (∀ a b : Tape, (a.add b).beq (b.add a) = true) := by
  constructor
  · intro a b p _
    exact tape_add_get a b p
  · intro a b
    apply tape_beq_of_get
    intro p
    rw [tape_add_get, tape_add_get, Nat.add_comm]

/-- C10 witness: the two tapes of the crate's `add` unit test summed at
position 0, with the no-overflow hypothesis discharged concretely. -/
theorem c10_add_pointwise_witness :
    (Tape.from_arrays [1, 2] [3, 4, 5, 6]).get 0
        + (Tape.from_arrays [1, 2, 3, 4] [5]).get 0 < 2 ^ 32 ∧
    ((Tape.from_arrays [1, 2] [3, 4, 5, 6]).add (Tape.from_arrays [1, 2, 3, 4] [5])).get 0
      = (Tape.from_arrays [1, 2] [3, 4, 5, 6]).get 0
        + (Tape.from_arrays [1, 2, 3, 4] [5]).get 0 :=
  ⟨by decide, c10_add_pointwise.1 (Tape.from_arrays [1, 2] [3, 4, 5, 6])
    (Tape.from_arrays [1, 2, 3, 4] [5]) 0 (by decide)⟩

end Phi
